import Mathlib

/-!
Verification of the weighted CH3 hash selection algorithm of
`mcrouter` (`src/mcrouter/lib/WeightedCh3HashFunc.h`).

The header documents the algorithm:

    Try retryCount times:
      index = CH3(key + next_salt(), n)
      probability = SpookyHashV2_uint32(key)
      if (probability < server_weight[index] * uint32_max):
        return index
    return index

where `next_salt()` initially returns the empty string and subsequently
the strings "0", "1", ..., "9", "01", "11", "21", ... — reversed decimal
representations of an increasing counter starting at 0.

The two hash primitives (the base consistent hash `CH3` and the 32-bit
scorer `SpookyHashV2_uint32`) are external dependencies; we model them as
opaque function parameters `bh : String → Nat → Nat` and
`sc : String → Nat`, adding their documented range contracts as
hypotheses where a claim needs them.  Weights are modelled as rationals
(`ℚ`); the C++ computation `uint64_t w = weights[index] * uint32_max`
truncates the nonnegative double product toward zero, which we render as
`Rat.floor`.
-/

/-- `kNumTries` from the header: the default retry count. -/
def kNumTries : Nat := 32

/-- Fuel-driven core of the salt digit generation.  The C++ loop is

      do { saltedKey.push_back(char(s % 10) + '0'); s /= 10; } while (s > 0);

i.e. it emits the decimal digits of `s` least-significant first, always
emitting at least one digit.  `fuel` only ensures structural termination;
`fuel ≥ s + 1` is always enough. -/
def revDecAux (fuel : Nat) (s : Nat) : List Char :=
  match fuel with
  | 0 => []
  | fuel' + 1 =>
    Nat.digitChar (s % 10) :: (if s / 10 = 0 then [] else revDecAux fuel' (s / 10))

/-- The decimal digits of `s`, least-significant first (reversed decimal
representation), as produced by the C++ do-while loop. -/
def revDecDigits (s : Nat) : List Char := revDecAux (s + 1) s

/-- Modelled from the spec: the salt used on attempt `i`
(`WeightedCh3HashFunc.cpp` is not under `src/`; the header at
`WeightedCh3HashFunc.h:36-39` documents that `next_salt()` initially
returns the empty string and subsequently the strings
"0", "1", ..., "9", "01", "11", "21", ..., the reversed decimal
representations of an increasing counter starting at 0).
So attempt `0` uses `""` and attempt `i + 1` uses the reversed decimal
digits of `i`. -/
def salt : Nat → String
  | 0 => ""
  | i + 1 => String.mk (revDecDigits i)

/-- The acceptance threshold for a weight: `uint64_t w = weight * uint32_max`,
i.e. the product truncated to an integer.  For the nonnegative weights the
code asserts (`0 <= weights[index] && weights[index] <= 1.0`) this integer
division of the numerator equals the C++ truncation of `w * 4294967295`. -/
def threshold (w : ℚ) : ℤ := w.num * 4294967295 / (w.den : ℤ)

/-- Modelled from the spec: the retry loop body of `weightedCh3Hash`
(`WeightedCh3HashFunc.cpp` is not under `src/`; modelled from the
algorithm documented at `WeightedCh3HashFunc.h:29-34` and spec §4.2).
`i` is the current attempt index, the second argument the number of
attempts remaining.  Each attempt hashes the salted key for a candidate
index, scores the unsalted key, and accepts iff the score is strictly
below the candidate's threshold; when the last attempt rejects, its
candidate index is returned anyway. -/
def wch3Loop (bh : String → Nat → Nat) (sc : String → Nat) (key : String)
    (weights : List ℚ) : Nat → Nat → Nat
  | _, 0 => 0
  | i, r + 1 =>
    let index := bh (key ++ salt i) weights.length
    if (sc key : ℤ) < threshold (weights.getD index 0) then index
    else if r = 0 then index
    else wch3Loop bh sc key weights (i + 1) r

/-- Modelled from the spec: `weightedCh3Hash(key, weights, retryCount)`
(`WeightedCh3HashFunc.cpp` is not under `src/`; modelled from the
algorithm documented at `WeightedCh3HashFunc.h:29-42` and spec §4.2),
parameterized by the external base hash `bh` and scorer `sc`. -/
def weightedCh3Hash (bh : String → Nat → Nat) (sc : String → Nat)
    (key : String) (weights : List ℚ) (retryCount : Nat) : Nat :=
  wch3Loop bh sc key weights 0 retryCount

/-- The candidate index probed on attempt `i`: the base hash of the salted
key over the pool size. -/
def candidate (bh : String → Nat → Nat) (key : String) (weights : List ℚ)
    (i : Nat) : Nat :=
  bh (key ++ salt i) weights.length

/-- Whether attempt `i` accepts: the score of the unsalted key is strictly
below the candidate's weight threshold. -/
def acceptsB (bh : String → Nat → Nat) (sc : String → Nat) (key : String)
    (weights : List ℚ) (i : Nat) : Bool :=
  decide ((sc key : ℤ) < threshold (weights.getD (candidate bh key weights i) 0))

/-- The usual decimal representation of `n` (most significant digit first),
written independently as a reference point for the salt rule. -/
def decimalRepr (n : Nat) : List Char :=
  if _h : n < 10 then [Nat.digitChar n]
  else decimalRepr (n / 10) ++ [Nat.digitChar (n % 10)]
decreasing_by omega

theorem revDecAux_fuel (s : Nat) :
    ∀ f1 f2, s < f1 → s < f2 → revDecAux f1 s = revDecAux f2 s := by
  induction s using Nat.strong_induction_on with
  | _ s ih =>
    intro f1 f2 h1 h2
    match f1, f2, h1, h2 with
    | f1 + 1, f2 + 1, h1, h2 =>
      simp only [revDecAux]
      by_cases h : s / 10 = 0
      · simp [h]
      · have hs : s / 10 < s := by omega
        simp only [h, if_neg, ite_false]
        rw [ih (s / 10) hs f1 f2 (by omega) (by omega)]

theorem revDec_unfold (s : Nat) :
    revDecDigits s =
      Nat.digitChar (s % 10) ::
        (if s / 10 = 0 then [] else revDecDigits (s / 10)) := by
  rw [revDecDigits]
  rw [revDecAux]
  by_cases h : s / 10 = 0
  · simp [h]
  · simp only [h, if_neg, ite_false]
    rw [revDecAux_fuel (s / 10) s (s / 10 + 1) (by omega) (by omega)]
    rfl

theorem digitChar_inj_lt :
    ∀ a, a < 10 → ∀ b, b < 10 → Nat.digitChar a = Nat.digitChar b → a = b := by
  decide

theorem revDecDigits_inj (a : Nat) :
    ∀ b, revDecDigits a = revDecDigits b → a = b := by
  induction a using Nat.strong_induction_on with
  | _ a ih =>
    intro b h
    rw [revDec_unfold a, revDec_unfold b] at h
    rw [List.cons.injEq] at h
    obtain ⟨h1, h2⟩ := h
    have hd : a % 10 = b % 10 :=
      digitChar_inj_lt _ (Nat.mod_lt _ (by omega)) _ (Nat.mod_lt _ (by omega)) h1
    by_cases ha : a / 10 = 0 <;> by_cases hb : b / 10 = 0
    · omega
    · rw [if_pos ha, if_neg hb, revDec_unfold] at h2
      exact absurd h2 (by simp)
    · rw [if_neg ha, if_pos hb, revDec_unfold] at h2
      exact absurd h2 (by simp)
    · rw [if_neg ha, if_neg hb] at h2
      have := ih (a / 10) (by omega) (b / 10) h2
      omega

theorem salt_inj : ∀ i j, salt i = salt j → i = j := by
  intro i j h
  match i, j with
  | 0, 0 => rfl
  | 0, j + 1 =>
    exfalso
    have hd : ([] : List Char) = revDecDigits j := congrArg String.data h
    rw [revDec_unfold] at hd
    exact absurd hd (by simp)
  | i + 1, 0 =>
    exfalso
    have hd : revDecDigits i = ([] : List Char) := congrArg String.data h
    rw [revDec_unfold] at hd
    exact absurd hd (by simp)
  | i + 1, j + 1 =>
    have hd : revDecDigits i = revDecDigits j := congrArg String.data h
    rw [revDecDigits_inj i j hd]

theorem revDec_eq_reverse (n : Nat) : revDecDigits n = (decimalRepr n).reverse := by
  induction n using Nat.strong_induction_on with
  | _ n ih =>
    rw [revDec_unfold, decimalRepr]
    by_cases h : n < 10
    · simp [h, Nat.div_eq_of_lt h, Nat.mod_eq_of_lt h]
    · have h0 : n / 10 ≠ 0 := by omega
      rw [dif_neg h, if_neg h0, List.reverse_append]
      simp only [List.reverse_cons, List.reverse_nil, List.nil_append,
        List.singleton_append, List.cons.injEq]
      exact ⟨trivial, ih (n / 10) (by omega)⟩

theorem wch3Loop_eq_find (bh : String → Nat → Nat) (sc : String → Nat)
    (key : String) (weights : List ℚ) :
    ∀ r i, wch3Loop bh sc key weights i (r + 1)
      = (((List.range' i (r + 1)).find? (acceptsB bh sc key weights)).map
          (candidate bh key weights)).getD
          (candidate bh key weights (i + r)) := by
  intro r
  induction r with
  | zero =>
    intro i
    rw [List.range'_succ]
    simp only [List.range'_zero]
    rw [wch3Loop]
    by_cases hp : (sc key : ℤ)
        < threshold (weights.getD (bh (key ++ salt i) weights.length) 0)
    · have hb : acceptsB bh sc key weights i = true := decide_eq_true hp
      rw [List.find?_cons_of_pos _ hb]
      rw [if_pos hp]
      rfl
    · have hb : acceptsB bh sc key weights i = false := decide_eq_false hp
      rw [List.find?_cons_of_neg _ (by simp [hb])]
      rw [if_neg hp]
      simp only [List.find?_nil, Option.map_none', Option.getD_none, Nat.add_zero,
        if_pos rfl]
      rfl
  | succ r ih =>
    intro i
    rw [List.range'_succ]
    rw [wch3Loop]
    by_cases hp : (sc key : ℤ)
        < threshold (weights.getD (bh (key ++ salt i) weights.length) 0)
    · have hb : acceptsB bh sc key weights i = true := decide_eq_true hp
      rw [List.find?_cons_of_pos _ hb]
      rw [if_pos hp]
      rfl
    · have hb : acceptsB bh sc key weights i = false := decide_eq_false hp
      rw [List.find?_cons_of_neg _ (by simp [hb])]
      rw [if_neg hp, if_neg (Nat.succ_ne_zero r)]
      rw [ih (i + 1)]
      have harith : i + 1 + r = i + (r + 1) := by omega
      rw [harith]

theorem wch3Loop_lt (bh : String → Nat → Nat) (sc : String → Nat)
    (key : String) (weights : List ℚ)
    (hbh : ∀ s, bh s weights.length < weights.length)
    (hn : 0 < weights.length) :
    ∀ r i, wch3Loop bh sc key weights i r < weights.length := by
  intro r
  induction r with
  | zero => intro i; rw [wch3Loop]; exact hn
  | succ r ih =>
    intro i
    rw [wch3Loop]
    by_cases hp : (sc key : ℤ)
        < threshold (weights.getD (bh (key ++ salt i) weights.length) 0)
    · rw [if_pos hp]
      exact hbh _
    · rw [if_neg hp]
      by_cases hr : r = 0
      · rw [if_pos hr]
        exact hbh _
      · rw [if_neg hr]
        exact ih (i + 1)

/-- The retry loop instrumented with call counters: returns
`(result, number of base-hash evaluations, number of score evaluations)`.
One base-hash call and one score call happen on each executed attempt,
exactly as in the loop body of `weightedCh3Hash`. -/
def wch3LoopCounted (bh : String → Nat → Nat) (sc : String → Nat) (key : String)
    (weights : List ℚ) : Nat → Nat → Nat × Nat × Nat
  | _, 0 => (0, 0, 0)
  | i, r + 1 =>
    let index := bh (key ++ salt i) weights.length
    if (sc key : ℤ) < threshold (weights.getD index 0) then (index, 1, 1)
    else if r = 0 then (index, 1, 1)
    else
      let t := wch3LoopCounted bh sc key weights (i + 1) r
      (t.1, t.2.1 + 1, t.2.2 + 1)

/-- `weightedCh3Hash` instrumented with evaluation counters for the two
external hash primitives. -/
def weightedCh3HashCounted (bh : String → Nat → Nat) (sc : String → Nat)
    (key : String) (weights : List ℚ) (retryCount : Nat) : Nat × Nat × Nat :=
  wch3LoopCounted bh sc key weights 0 retryCount

theorem wch3LoopCounted_fst (bh : String → Nat → Nat) (sc : String → Nat)
    (key : String) (weights : List ℚ) :
    ∀ r i, (wch3LoopCounted bh sc key weights i r).1
      = wch3Loop bh sc key weights i r := by
  intro r
  induction r with
  | zero => intro i; rfl
  | succ r ih =>
    intro i
    rw [wch3LoopCounted, wch3Loop]
    by_cases hp : (sc key : ℤ)
        < threshold (weights.getD (bh (key ++ salt i) weights.length) 0)
    · rw [if_pos hp, if_pos hp]
    · rw [if_neg hp, if_neg hp]
      by_cases hr : r = 0
      · rw [if_pos hr, if_pos hr]
      · rw [if_neg hr, if_neg hr]
        exact ih (i + 1)

theorem wch3LoopCounted_le (bh : String → Nat → Nat) (sc : String → Nat)
    (key : String) (weights : List ℚ) :
    ∀ r i, (wch3LoopCounted bh sc key weights i r).2.1 ≤ r
      ∧ (wch3LoopCounted bh sc key weights i r).2.2 ≤ r := by
  intro r
  induction r with
  | zero => intro i; exact ⟨Nat.le_refl 0, Nat.le_refl 0⟩
  | succ r ih =>
    intro i
    rw [wch3LoopCounted]
    by_cases hp : (sc key : ℤ)
        < threshold (weights.getD (bh (key ++ salt i) weights.length) 0)
    · rw [if_pos hp]
      exact ⟨Nat.succ_le_succ (Nat.zero_le r), Nat.succ_le_succ (Nat.zero_le r)⟩
    · rw [if_neg hp]
      by_cases hr : r = 0
      · rw [if_pos hr]
        exact ⟨Nat.succ_le_succ (Nat.zero_le r), Nat.succ_le_succ (Nat.zero_le r)⟩
      · rw [if_neg hr]
        have h := ih (i + 1)
        refine ⟨?_, ?_⟩
        · show (wch3LoopCounted bh sc key weights (i + 1) r).2.1 + 1 ≤ r + 1
          omega
        · show (wch3LoopCounted bh sc key weights (i + 1) r).2.2 + 1 ≤ r + 1
          omega

/-- The `WeightedCh3HashFunc` holder: an immutable value object wrapping the
weight vector (`const std::vector<double> weights_` in the header). -/
structure WeightedCh3HashFunc where
  weights_ : List ℚ

/-- Modelled from the spec: the raw-list constructor
`WeightedCh3HashFunc(std::vector<double>)` (its body is not under `src/`;
spec §4.3 says the raw-list constructor stores the list as-is). -/
def WeightedCh3HashFunc.ofWeights (weights : List ℚ) : WeightedCh3HashFunc :=
  ⟨weights⟩

/-- The `weights()` accessor, inline in the header: returns the saved
weights. -/
def WeightedCh3HashFunc.weights (f : WeightedCh3HashFunc) : List ℚ :=
  f.weights_

/-- Modelled from the spec: `WeightedCh3HashFunc::operator()(key)` (its body
is not under `src/`): selects an index by `weightedCh3Hash` over the stored
weights with the default retry count `kNumTries`. -/
def WeightedCh3HashFunc.call (bh : String → Nat → Nat) (sc : String → Nat)
    (f : WeightedCh3HashFunc) (key : String) : Nat :=
  weightedCh3Hash bh sc key f.weights_ kNumTries

/-- A call of `weightedCh3Hash` with the weight vector threaded as explicit
state.  The C++ signature takes the weights as `folly::Range<const double*>`,
a read-only view with no write operation in the call, so the call returns
the selected index together with the weight vector as it stands after the
call — unchanged. -/
def weightedCh3HashSt (bh : String → Nat → Nat) (sc : String → Nat)
    (key : String) (weights : List ℚ) (retryCount : Nat) : Nat × List ℚ :=
  (weightedCh3Hash bh sc key weights retryCount, weights)

/-- A call of `WeightedCh3HashFunc::operator()` with the holder threaded as
explicit state (`operator()` is a const member function and `weights_` a
const member, so the holder after the call is the holder before it). -/
def WeightedCh3HashFunc.callSt (bh : String → Nat → Nat) (sc : String → Nat)
    (f : WeightedCh3HashFunc) (key : String) : Nat × WeightedCh3HashFunc :=
  (WeightedCh3HashFunc.call bh sc f key, f)

/-- A simple concrete base hash used to instantiate the theorems below at
concrete inputs. -/
def testBH (s : String) (n : Nat) : Nat := s.length % n

/-- A concrete scorer always drawing the maximum 32-bit value. -/
def testScMax (_ : String) : Nat := 4294967295

/-- A concrete scorer always drawing a small value. -/
def testScSmall (_ : String) : Nat := 7

/-- C1, counterexample: with every weight equal to 1.0 the selection does
not always collapse to the base hash — a scorer drawing exactly
`UINT32_MAX = 4294967295` (a legal 32-bit value) fails the strict test
`p < weight * UINT32_MAX` on every attempt, so the fallback returns the
last attempt's candidate, which differs from `baseHash(key, n)` here. -/
theorem c1_counterexample :
    (∀ s, testScMax s < 2 ^ 32) ∧ (∀ w ∈ ([1, 1] : List ℚ), w = 1) ∧
    weightedCh3Hash testBH testScMax "" [1, 1] 2 ≠ testBH "" 2 :=
  ⟨fun _ => by norm_num [testScMax], by decide, by decide⟩

/-- C1 (amended): for every key whose score draw is strictly below
`UINT32_MAX`, and every weight vector in which every weight equals 1.0,
`weightedCh3Hash(key, weights, retryCount)` returns exactly
`baseHash(key, weights.size())`: attempt 0 (empty salt, threshold
`4294967295` from weight 1.0) accepts. -/
theorem all_ones_collapse (bh : String → Nat → Nat) (sc : String → Nat)
    (key : String) (weights : List ℚ) (retryCount : Nat)
    (hr : 0 < retryCount)
    (hw : ∀ w ∈ weights, w = 1)
    (hbh : bh key weights.length < weights.length)
    (hsc : sc key < 4294967295) :
    weightedCh3Hash bh sc key weights retryCount = bh key weights.length := by
  obtain ⟨r, rfl⟩ : ∃ r, retryCount = r + 1 := ⟨retryCount - 1, by omega⟩
  rw [weightedCh3Hash, wch3Loop]
  have hkey : key ++ salt 0 = key := String.append_empty key
  rw [hkey]
  have hget : weights.getD (bh key weights.length) 0 = 1 := by
    rw [List.getD_eq_getElem weights 0 hbh]
    exact hw _ (List.getElem_mem hbh)
  rw [hget]
  have hth : threshold 1 = 4294967295 := by decide
  rw [hth]
  rw [if_pos (by exact_mod_cast hsc)]

/-- C1 (amended), witness at a concrete input. -/
theorem c1_witness :
    (0 < 1 ∧ (∀ w ∈ ([1, 1, 1] : List ℚ), w = 1)
      ∧ testBH "ab" ([1, 1, 1] : List ℚ).length < ([1, 1, 1] : List ℚ).length
      ∧ testScSmall "ab" < 4294967295) ∧
    weightedCh3Hash testBH testScSmall "ab" [1, 1, 1] 1
      = testBH "ab" ([1, 1, 1] : List ℚ).length :=
  ⟨⟨by decide, by decide, by decide, by decide⟩,
   all_ones_collapse testBH testScSmall "ab" [1, 1, 1] 1
     (by decide) (by decide) (by decide) (by decide)⟩

/-- C2: with a positive retry count, the result of `weightedCh3Hash` is the
candidate `baseHash(key ++ salt(i), weights.size())` of the first attempt
`i` whose acceptance test fires, and the candidate of the last attempt when
none does; the acceptance test of attempt `i` (see `acceptsB`) compares the
score of the unsalted key — the same draw on every attempt — strictly
against `weights[candidate] * UINT32_MAX`, and weight 1.0 yields threshold
`4294967295`, the maximum 32-bit unsigned value. -/
theorem attempt_structure (bh : String → Nat → Nat) (sc : String → Nat)
    (key : String) (weights : List ℚ) (retryCount : Nat)
    (hr : 0 < retryCount) :
    threshold 1 = 4294967295 ∧
    weightedCh3Hash bh sc key weights retryCount
      = (((List.range retryCount).find? (acceptsB bh sc key weights)).map
          (candidate bh key weights)).getD
          (candidate bh key weights (retryCount - 1)) := by
  refine ⟨by decide, ?_⟩
  obtain ⟨r, rfl⟩ : ∃ r, retryCount = r + 1 := ⟨retryCount - 1, by omega⟩
  rw [weightedCh3Hash, List.range_eq_range', wch3Loop_eq_find]
  have h1 : 0 + r = r + 1 - 1 := by omega
  rw [h1]

/-- C2, witness at a concrete input. -/
theorem c2_witness :
    0 < 2 ∧
    (threshold 1 = 4294967295 ∧
      weightedCh3Hash testBH testScSmall "k" [1, 0] 2
        = (((List.range 2).find? (acceptsB testBH testScSmall "k" [1, 0])).map
            (candidate testBH "k" [1, 0])).getD
            (candidate testBH "k" [1, 0] (2 - 1))) :=
  ⟨by decide, attempt_structure testBH testScSmall "k" [1, 0] 2 (by decide)⟩

/-- C3: if every one of the `retryCount > 0` attempts fails the acceptance
test, `weightedCh3Hash` returns the candidate index of the last attempt
(`retryCount - 1`) unconditionally — the function is total and never
signals an error. -/
theorem fallback_last_attempt (bh : String → Nat → Nat) (sc : String → Nat)
    (key : String) (weights : List ℚ) (retryCount : Nat)
    (hr : 0 < retryCount)
    (hrej : ∀ i, i < retryCount → acceptsB bh sc key weights i = false) :
    weightedCh3Hash bh sc key weights retryCount
      = candidate bh key weights (retryCount - 1) := by
  obtain ⟨r, rfl⟩ : ∃ r, retryCount = r + 1 := ⟨retryCount - 1, by omega⟩
  rw [weightedCh3Hash, wch3Loop_eq_find]
  have hnone : (List.range' 0 (r + 1)).find? (acceptsB bh sc key weights) = none := by
    rw [List.find?_eq_none]
    intro x hx
    have hlt : x < r + 1 := by
      have := List.mem_range'_1.mp hx
      omega
    simp [hrej x hlt]
  rw [hnone]
  simp only [Option.map_none', Option.getD_none, Nat.zero_add]
  rfl

/-- C3, witness at a concrete input: zero weights reject every attempt. -/
theorem c3_witness :
    (0 < 2 ∧ (∀ i, i < 2 → acceptsB testBH testScSmall "k" [0, 0] i = false)) ∧
    weightedCh3Hash testBH testScSmall "k" [0, 0] 2
      = candidate testBH "k" [0, 0] (2 - 1) :=
  ⟨⟨by decide, by decide⟩,
   fallback_last_attempt testBH testScSmall "k" [0, 0] 2 (by decide) (by decide)⟩

/-- C4: assuming the base hash honours its contract (an index in `[0, n)`
for every positive pool size `n`), the index returned by `weightedCh3Hash`
on a nonempty weight vector with a positive retry count is always in
`[0, weights.size())`. -/
theorem range_safety (bh : String → Nat → Nat) (sc : String → Nat)
    (key : String) (weights : List ℚ) (retryCount : Nat)
    (_hr : 0 < retryCount) (hne : weights ≠ [])
    (hbh : ∀ s n, 0 < n → bh s n < n) :
    weightedCh3Hash bh sc key weights retryCount < weights.length := by
  have hn : 0 < weights.length := List.length_pos.mpr hne
  exact wch3Loop_lt bh sc key weights (fun s => hbh s _ hn) hn retryCount 0

/-- C4, witness at a concrete input. -/
theorem c4_witness :
    (0 < 2 ∧ ([1, 0] : List ℚ) ≠ [] ∧ (∀ s n, 0 < n → testBH s n < n)) ∧
    weightedCh3Hash testBH testScSmall "abc" [1, 0] 2 < ([1, 0] : List ℚ).length :=
  ⟨⟨by decide, by decide, fun _ _ h => Nat.mod_lt _ h⟩,
   range_safety testBH testScSmall "abc" [1, 0] 2 (by decide) (by decide)
     (fun _ _ h => Nat.mod_lt _ h)⟩

/-- C5: `weightedCh3Hash` is a pure deterministic function of
`(key, weights, retryCount)` (for fixed hash primitives): identical
arguments yield the identical index; the embedding is a plain function, so
no state can persist between calls. -/
theorem determinism (bh : String → Nat → Nat) (sc : String → Nat)
    (key1 key2 : String) (w1 w2 : List ℚ) (r1 r2 : Nat)
    (hk : key1 = key2) (hw : w1 = w2) (hr : r1 = r2) :
    weightedCh3Hash bh sc key1 w1 r1 = weightedCh3Hash bh sc key2 w2 r2 := by
  rw [hk, hw, hr]

/-- C5, witness at a concrete input. -/
theorem c5_witness :
    ("k" = "k" ∧ ([1] : List ℚ) = [1] ∧ 3 = 3) ∧
    weightedCh3Hash testBH testScSmall "k" [1] 3
      = weightedCh3Hash testBH testScSmall "k" [1] 3 :=
  ⟨⟨rfl, rfl, rfl⟩, determinism testBH testScSmall "k" "k" [1] [1] 3 3 rfl rfl rfl⟩

/-- C6, counterexample: the salt of attempt 1 is "0" (the reversed decimal
representation of the counter value 0), not "1" as the claim states. -/
theorem c6_counterexample : salt 1 ≠ "1" := by decide

/-- C6 (amended): the salt of attempt 0 is the empty string, and the salt
of attempt `i + 1` is the decimal digits of `i` — not of `i + 1` — written
in reverse order: attempt 1 → "0", attempt 11 → "01", attempt 13 → "21",
matching the sequence "0", "1", ..., "9", "01", "11", "21", ... the header
documents. -/
theorem salt_scheme :
    salt 0 = "" ∧ (∀ i, (salt (i + 1)).data = (decimalRepr i).reverse) ∧
    salt 1 = "0" ∧ salt 11 = "01" ∧ salt 13 = "21" := by
  refine ⟨rfl, ?_, by decide, by decide, by decide⟩
  intro i
  exact revDec_eq_reverse i

/-- C7: the salt function is injective — in particular on the range
`[0, 10000)` — and `salt 0` is the empty string. -/
theorem salt_distinct :
    salt 0 = "" ∧ ∀ i j, i < 10000 → j < 10000 → i ≠ j → salt i ≠ salt j :=
  ⟨rfl, fun i j _ _ hne heq => hne (salt_inj i j heq)⟩

/-- C7, witness at a concrete pair. -/
theorem c7_witness :
    (salt 0 = "" ∧ 3 < 10000 ∧ 7 < 10000 ∧ 3 ≠ 7) ∧ salt 3 ≠ salt 7 :=
  ⟨⟨salt_distinct.1, by decide, by decide, by decide⟩,
   salt_distinct.2 3 7 (by decide) (by decide) (by decide)⟩

/-- C8: `kNumTries = 32`, and on every input the (terminating) selection
evaluates the base hash at most `retryCount` times and the scorer at most
`retryCount` times, with the instrumented run computing the same index as
`weightedCh3Hash`. -/
theorem bounded_retries (bh : String → Nat → Nat) (sc : String → Nat)
    (key : String) (weights : List ℚ) (retryCount : Nat) :
    kNumTries = 32 ∧
    (weightedCh3HashCounted bh sc key weights retryCount).1
      = weightedCh3Hash bh sc key weights retryCount ∧
    (weightedCh3HashCounted bh sc key weights retryCount).2.1 ≤ retryCount ∧
    (weightedCh3HashCounted bh sc key weights retryCount).2.2 ≤ retryCount :=
  ⟨rfl, wch3LoopCounted_fst bh sc key weights retryCount 0,
   (wch3LoopCounted_le bh sc key weights retryCount 0).1,
   (wch3LoopCounted_le bh sc key weights retryCount 0).2⟩

/-- C9: no selection call mutates the weight vector: threading the weights
(resp. the holder) through a call as explicit state returns them exactly as
they were, and the stored weights of a holder are unchanged by a call. -/
theorem no_mutation (bh : String → Nat → Nat) (sc : String → Nat)
    (key : String) (weights : List ℚ) (retryCount : Nat)
    (f : WeightedCh3HashFunc) :
    (weightedCh3HashSt bh sc key weights retryCount).2 = weights ∧
    ((WeightedCh3HashFunc.callSt bh sc f key).2).weights = f.weights :=
  ⟨rfl, rfl⟩

/-- C10: constructing a `WeightedCh3HashFunc` from a raw list and reading
`weights()` back returns exactly the list passed in. -/
theorem weights_roundtrip (ws : List ℚ) :
    (WeightedCh3HashFunc.ofWeights ws).weights = ws := rfl
